import Mathlib

/-!
# Delivery Slot Picker — verification of the core algorithms

Shallow embedding of the core logic of `src/App.js`:

* `generateDates` — walks forward one calendar day at a time from "today",
  skipping Sundays, collecting 28 dates, then pads with extra dates so the
  total fills the last group of size `groupSize`.
* `groupDates` — chunks a list into consecutive groups of `groupSize`.
* `isUnavailable` — the availability predicate on (date, slot, specialItem).

Dates are modelled as absolute day numbers (`Nat`); `getDay()` becomes
`d % 7` with the convention that day numbers divisible by 7 are Sundays
(the starting day `today` is universally quantified, so every weekday
alignment of the real calendar is covered).  `isUnavailable` reads only
`getDay()` and `getDate()` of its date argument, so its date input is
modelled as the pair of those two observations.
-/

namespace DeliverySlotPicker

/-- JS `date.getDay()`: 0 = Sunday, 1 = Monday, …, 6 = Saturday. -/
def getDay (d : Nat) : Nat := d % 7

/-- First phase of `generateDates` (App.js lines 17–23): starting at day `d`,
walk forward one day at a time; push every non-Sunday day until `n` have been
pushed.  Returns the pushed days together with the final value of the walk
cursor `date` (which the JS loop leaves one past the last day it examined). -/
def collect (n : Nat) (d : Nat) : List Nat × Nat :=
  if h : n = 0 then
    ([], d)
  else
    if getDay d = 0 then
      collect n (d + 1)
    else
      let r := collect (n - 1) (d + 1)
      (d :: r.1, r.2)
termination_by 2 * n + (if d % 7 = 0 then 1 else 0)
decreasing_by
  · simp only [getDay] at *; split_ifs <;> omega
  · simp only [getDay] at *; split_ifs <;> omega

/-- Padding phase of `generateDates` (App.js lines 31–38): the `for` loop
increments the cursor *before* the Sunday check, pushes non-Sundays, and
decrements `i` on Sundays so that exactly `need` days get pushed. -/
def pad (need : Nat) (d : Nat) : List Nat :=
  if h : need = 0 then
    []
  else
    if getDay (d + 1) = 0 then
      pad need (d + 1)
    else
      (d + 1) :: pad (need - 1) (d + 1)
termination_by 2 * need + (if (d + 1) % 7 = 0 then 1 else 0)
decreasing_by
  · simp only [getDay] at *; split_ifs <;> omega
  · simp only [getDay] at *; split_ifs <;> omega

/-- Function `generateDates` (App.js lines 11–42) with the wall-clock read `new Date()`
made explicit as the parameter `today`.  Collect 28 non-Sunday days; then, if
`dates.length % groupSize ≠ 0`, append `groupSize - remainder` further
non-Sunday days continuing from the persisting walk cursor.

(For `groupSize = 0` the JS computes `remainder = 28 % 0 = NaN ≠ 0` and
`extraDaysNeeded = NaN`, so the padding loop body never runs and the 28
collected dates are returned; here `28 % 0 = 28 ≠ 0` and
`pad (0 - 28) = pad 0 = []`, giving the same result.) -/
def generateDates (groupSize : Nat) (today : Nat) : List Nat :=
  let r := collect 28 today
  let dates := r.1
  let remainder := dates.length % groupSize
  if remainder ≠ 0 then
    dates ++ pad (groupSize - remainder) r.2
  else
    dates

/-- JS `Array.prototype.slice(start, end)` on a list, with the ECMAScript
index normalisation: a negative index counts from the end, and both indices
are clamped to `[0, length]`. -/
def jsSlice {α : Type} (l : List α) (start fin : Int) : List α :=
  (l.take
      (if fin < 0 then max ((l.length : Int) + fin) 0
       else min fin (l.length : Int)).toNat).drop
    (if start < 0 then max ((l.length : Int) + start) 0
     else min start (l.length : Int)).toNat

/-- Function `groupDates` (App.js lines 51–62).  The JS loop keeps an index `i`,
pushes `dates.slice(i, i + groupSize)` and advances `i += groupSize` while
`i < dates.length`; making the already-processed prefix implicit (the
suffix `dates.drop i` is the recursion argument, and
`slice(i, i + g) = (drop i).take g`, `drop (i + g) = (drop i).drop g`)
gives this chunking recursion.  Termination needs `0 < groupSize`; the
fuelled model `groupLoopF` below covers the loop for `groupSize ≤ 0` and
is proved to agree with this definition on `0 < groupSize`. -/
def groupDates {α : Type} (dates : List α) (groupSize : Nat)
    (hg : 0 < groupSize) : List (List α) :=
  match dates with
  | [] => []
  | x :: xs =>
    (x :: xs).take groupSize :: groupDates ((x :: xs).drop groupSize) groupSize hg
termination_by dates.length
decreasing_by simp only [List.length_drop, List.length_cons]; omega

/-- Fuelled operational model of the `while` loop inside `groupDates`
(App.js lines 55–59), with the index and group size on `Int` (JS numbers
can go negative): the state is the index `i` and the accumulator `grouped`;
each iteration pushes `dates.slice(i, i + groupSize)` and advances
`i += groupSize`.  `none` means the fuel ran out before `i < dates.length`
became false. -/
def groupLoopF {α : Type} (dates : List α) (groupSize : Int) :
    Nat → Int → List (List α) → Option (List (List α))
  | 0, _, _ => none
  | fuel + 1, i, grouped =>
    if i < (dates.length : Int) then
      groupLoopF dates groupSize fuel (i + groupSize)
        (grouped ++ [jsSlice dates i (i + groupSize)])
    else
      some grouped

/-- The two observations `isUnavailable` makes of its `Date` argument:
`getDay()` (weekday, 0 = Sunday … 6 = Saturday) and `getDate()`
(day of month, 1–31). -/
structure JSDate where
  day : Nat
  dayOfMonth : Nat

/-- Result of `isUnavailable`: the JS function returns the string
`'unavailable'`, the string `'full'`, or the boolean `false` (available). -/
inductive AvailabilityResult where
  | unavailable
  | full
  | available
deriving DecidableEq, Repr

/-- Computes `Math.ceil(x / 7)` for a natural number `x`. -/
def ceilDiv7 (x : Nat) : Nat := (x + 6) / 7

/-- The measurement made by the test suite on `generateDates 4`: the
difference in calendar days between the last and the first element,
`dates[dates.length - 1] - dates[0]`. -/
def daySpan (l : List Nat) : Nat := l.getD (l.length - 1) 0 - l.getD 0 0

/-- Function `isUnavailable` (App.js lines 73–90). -/
def isUnavailable (date : JSDate) (slot : String) (isSpecialItem : Bool) :
    AvailabilityResult :=
  let day := date.day
  let isFriday := day == 5
  let isWednesday := day == 3
  if isSpecialItem && isWednesday then
    .unavailable
  else
    let isSecondFriday := ceilDiv7 date.dayOfMonth % 2 == 0
    if isFriday && isSecondFriday && slot == "AM" then
      .full
    else
      .available

/-! ## Unfolding equations for `collect` and `pad` -/

theorem collect_zero (d : Nat) : collect 0 d = ([], d) := by
  rw [collect, dif_pos rfl]

theorem collect_sunday {n d : Nat} (hn : n ≠ 0) (hs : getDay d = 0) :
    collect n d = collect n (d + 1) := by
  rw [collect, dif_neg hn, if_pos hs]

theorem collect_step {n d : Nat} (hn : n ≠ 0) (hs : getDay d ≠ 0) :
    collect n d = (d :: (collect (n - 1) (d + 1)).1, (collect (n - 1) (d + 1)).2) := by
  rw [collect, dif_neg hn, if_neg hs]

theorem pad_zero (d : Nat) : pad 0 d = [] := by
  rw [pad, dif_pos rfl]

theorem pad_sunday {need d : Nat} (hn : need ≠ 0) (hs : getDay (d + 1) = 0) :
    pad need d = pad need (d + 1) := by
  rw [pad, dif_neg hn, if_pos hs]

theorem pad_step {need d : Nat} (hn : need ≠ 0) (hs : getDay (d + 1) ≠ 0) :
    pad need d = (d + 1) :: pad (need - 1) (d + 1) := by
  rw [pad, dif_neg hn, if_neg hs]

/-! ## Lemmas about the collection and padding phases -/

theorem collect_length (n d : Nat) : (collect n d).1.length = n := by
  induction n, d using collect.induct with
  | case1 d => simp [collect_zero]
  | case2 n d hn hs ih => rw [collect_sunday hn hs]; exact ih
  | case3 n d hn hs ih =>
    rw [collect_step hn hs]
    simp only [List.length_cons, ih]
    omega

theorem collect_cursor_ge (n d : Nat) : d ≤ (collect n d).2 := by
  induction n, d using collect.induct with
  | case1 d => simp [collect_zero]
  | case2 n d hn hs ih => rw [collect_sunday hn hs]; omega
  | case3 n d hn hs ih => rw [collect_step hn hs]; exact le_trans (Nat.le_succ d) ih

theorem collect_mem_bounds (n d : Nat) :
    ∀ x ∈ (collect n d).1, d ≤ x ∧ x < (collect n d).2 := by
  induction n, d using collect.induct with
  | case1 d => simp [collect_zero]
  | case2 n d hn hs ih =>
    rw [collect_sunday hn hs]
    intro x hx
    have := ih x hx
    omega
  | case3 n d hn hs ih =>
    rw [collect_step hn hs]
    intro x hx
    rcases List.mem_cons.mp hx with rfl | hx
    · exact ⟨le_refl x,
        lt_of_lt_of_le (Nat.lt_succ_self x) (collect_cursor_ge (n - 1) (x + 1))⟩
    · have := ih x hx
      exact ⟨le_trans (Nat.le_succ d) this.1, this.2⟩

theorem collect_mem_not_sunday (n d : Nat) :
    ∀ x ∈ (collect n d).1, getDay x ≠ 0 := by
  induction n, d using collect.induct with
  | case1 d => simp [collect_zero]
  | case2 n d hn hs ih => rw [collect_sunday hn hs]; exact ih
  | case3 n d hn hs ih =>
    rw [collect_step hn hs]
    intro x hx
    rcases List.mem_cons.mp hx with rfl | hx
    · exact hs
    · exact ih x hx

theorem collect_pairwise (n d : Nat) :
    List.Pairwise (· < ·) (collect n d).1 := by
  induction n, d using collect.induct with
  | case1 d => simp [collect_zero]
  | case2 n d hn hs ih => rw [collect_sunday hn hs]; exact ih
  | case3 n d hn hs ih =>
    rw [collect_step hn hs]
    refine List.pairwise_cons.mpr ⟨fun x hx => ?_, ih⟩
    exact lt_of_lt_of_le (Nat.lt_succ_self d) (collect_mem_bounds (n - 1) (d + 1) x hx).1

theorem pad_length (need d : Nat) : (pad need d).length = need := by
  induction need, d using pad.induct with
  | case1 d => simp [pad_zero]
  | case2 need d hn hs ih => rw [pad_sunday hn hs]; exact ih
  | case3 need d hn hs ih =>
    rw [pad_step hn hs]
    simp only [List.length_cons, ih]
    omega

theorem pad_mem_gt (need d : Nat) : ∀ x ∈ pad need d, d < x := by
  induction need, d using pad.induct with
  | case1 d => simp [pad_zero]
  | case2 need d hn hs ih =>
    rw [pad_sunday hn hs]
    intro x hx
    exact lt_trans (Nat.lt_succ_self d) (ih x hx)
  | case3 need d hn hs ih =>
    rw [pad_step hn hs]
    intro x hx
    rcases List.mem_cons.mp hx with rfl | hx
    · exact Nat.lt_succ_self d
    · exact lt_trans (Nat.lt_succ_self d) (ih x hx)

theorem pad_mem_not_sunday (need d : Nat) :
    ∀ x ∈ pad need d, getDay x ≠ 0 := by
  induction need, d using pad.induct with
  | case1 d => simp [pad_zero]
  | case2 need d hn hs ih => rw [pad_sunday hn hs]; exact ih
  | case3 need d hn hs ih =>
    rw [pad_step hn hs]
    intro x hx
    rcases List.mem_cons.mp hx with rfl | hx
    · exact hs
    · exact ih x hx

theorem pad_pairwise (need d : Nat) :
    List.Pairwise (· < ·) (pad need d) := by
  induction need, d using pad.induct with
  | case1 d => simp [pad_zero]
  | case2 need d hn hs ih => rw [pad_sunday hn hs]; exact ih
  | case3 need d hn hs ih =>
    rw [pad_step hn hs]
    exact List.pairwise_cons.mpr ⟨fun x hx => pad_mem_gt (need - 1) (d + 1) x hx, ih⟩

/-- The walk cursor returned by `collect` sits exactly one day past the last
collected date (the JS loop increments `date` after the final push). -/
theorem collect_getLast (n d : Nat) :
    n ≠ 0 → (collect n d).1.getLast? = some ((collect n d).2 - 1) := by
  induction n, d using collect.induct with
  | case1 d => intro h; exact absurd rfl h
  | case2 n d hn hs ih => intro _; rw [collect_sunday hn hs]; exact ih hn
  | case3 n d hn hs ih =>
    intro _
    rw [collect_step hn hs]
    by_cases h1 : n - 1 = 0
    · rw [h1, collect_zero]
      simp
    · have ihne := ih h1
      obtain ⟨y, l, hl⟩ : ∃ y l, (collect (n - 1) (d + 1)).1 = y :: l := by
        cases hcl : (collect (n - 1) (d + 1)).1 with
        | nil =>
          exfalso
          have := collect_length (n - 1) (d + 1)
          rw [hcl] at this
          simp at this
          omega
        | cons y l => exact ⟨y, l, rfl⟩
      rw [hl] at ihne
      rw [hl, List.getLast?_cons_cons]
      exact ihne

/-- Closed form for the length of `generateDates`, for every `groupSize`. -/
theorem generateDates_length_eq (g today : Nat) :
    (generateDates g today).length =
      if 28 % g = 0 then 28 else 28 + (g - 28 % g) := by
  unfold generateDates
  have h28 : (collect 28 today).1.length = 28 := collect_length 28 today
  by_cases h : 28 % g = 0
  · simp [h28, h]
  · simp [h28, h, pad_length]

/-! ## Claim theorems -/

/-- C1: for every positive `groupSize`, `generateDates groupSize` has length
28 when `28 % groupSize = 0`, and otherwise length
`28 + (groupSize - 28 % groupSize)`, which is a multiple of `groupSize`;
when `groupSize > 28` the length equals `groupSize`; in particular the
lengths for group sizes 7, 5, 3 are 28, 30, 30. -/
theorem generateDates_length_spec (g today : Nat) (hg : 0 < g) :
    (28 % g = 0 → (generateDates g today).length = 28)
    ∧ (28 % g ≠ 0 →
        (generateDates g today).length = 28 + (g - 28 % g)
        ∧ (generateDates g today).length % g = 0)
    ∧ (28 < g → (generateDates g today).length = g)
    ∧ (generateDates 7 today).length = 28
    ∧ (generateDates 5 today).length = 30
    ∧ (generateDates 3 today).length = 30 := by
  refine ⟨fun h => ?_, fun h => ⟨?_, ?_⟩, fun h => ?_, ?_, ?_, ?_⟩
  · rw [generateDates_length_eq, if_pos h]
  · rw [generateDates_length_eq, if_neg h]
  · rw [generateDates_length_eq, if_neg h]
    have hlt : 28 % g < g := Nat.mod_lt 28 hg
    have hdiv : 28 % g + g * (28 / g) = 28 := Nat.mod_add_div 28 g
    have hmul : g * (28 / g + 1) = g * (28 / g) + g := by ring
    have : 28 + (g - 28 % g) = g * (28 / g + 1) := by omega
    rw [this]
    exact Nat.mul_mod_right g (28 / g + 1)
  · have h28 : 28 % g = 28 := Nat.mod_eq_of_lt h
    rw [generateDates_length_eq, if_neg (by omega)]
    omega
  · rw [generateDates_length_eq]; norm_num
  · rw [generateDates_length_eq]; norm_num
  · rw [generateDates_length_eq]; norm_num

/-- Witness for C1 at `groupSize = 5`, `today = 0`. -/
theorem generateDates_length_spec_witness :
    (generateDates 5 0).length = 28 + (5 - 28 % 5) :=
  ((generateDates_length_spec 5 0 (by decide)).2.1 (by decide)).1

/-- C5: no element of `generateDates` falls on a Sunday, for every positive
`groupSize` and every starting day. -/
theorem generateDates_no_sunday (g today : Nat) (hg : 0 < g) :
    ∀ x ∈ generateDates g today, getDay x ≠ 0 := by
  intro x hx
  unfold generateDates at hx
  by_cases h : (collect 28 today).1.length % g ≠ 0
  · rw [if_pos h] at hx
    rcases List.mem_append.mp hx with hx | hx
    · exact collect_mem_not_sunday 28 today x hx
    · exact pad_mem_not_sunday _ _ x hx
  · rw [if_neg h] at hx
    exact collect_mem_not_sunday 28 today x hx

/-- Concrete run: `generateDates 7` starting on a Sunday (day 0). -/
theorem generateDates_seven_zero_eval :
    generateDates 7 0 =
      [1, 2, 3, 4, 5, 6, 8, 9, 10, 11, 12, 13, 15, 16, 17, 18, 19, 20, 22,
       23, 24, 25, 26, 27, 29, 30, 31, 32] := by
  simp [generateDates, collect_zero, collect_sunday, collect_step, getDay]

/-- Witness for C5: day 1 belongs to `generateDates 7 0` and is not a
Sunday. -/
theorem generateDates_no_sunday_witness : getDay 1 ≠ 0 :=
  generateDates_no_sunday 7 0 (by decide) 1
    (by rw [generateDates_seven_zero_eval]; decide)

/-- C6: `generateDates` is strictly increasing (hence duplicate-free), for
every positive `groupSize` and every starting day. -/
theorem generateDates_sorted (g today : Nat) (hg : 0 < g) :
    List.Pairwise (· < ·) (generateDates g today)
    ∧ (generateDates g today).Nodup := by
  have hpair : List.Pairwise (· < ·) (generateDates g today) := by
    unfold generateDates
    by_cases h : (collect 28 today).1.length % g ≠ 0
    · rw [if_pos h]
      refine List.pairwise_append.mpr ⟨collect_pairwise 28 today, pad_pairwise _ _, ?_⟩
      intro x hx y hy
      have hx' := (collect_mem_bounds 28 today x hx).2
      have hy' := pad_mem_gt _ _ y hy
      omega
    · rw [if_neg h]
      exact collect_pairwise 28 today
  exact ⟨hpair, List.Pairwise.imp ne_of_lt hpair⟩

/-- Witness for C6 at `groupSize = 5`, `today = 0`. -/
theorem generateDates_sorted_witness :
    List.Pairwise (· < ·) (generateDates 5 0) ∧ (generateDates 5 0).Nodup :=
  generateDates_sorted 5 0 (by decide)

/-- Shifting the start day by a week shifts every collected day and the
final cursor by a week (the weekday pattern has period 7). -/
theorem collect_shift (n d : Nat) :
    collect n (d + 7) =
      ((collect n d).1.map (fun x => x + 7), (collect n d).2 + 7) := by
  induction n, d using collect.induct with
  | case1 d => simp [collect_zero]
  | case2 n d hn hs ih =>
    have hs7 : getDay (d + 7) = 0 := by simp only [getDay] at *; omega
    rw [collect_sunday hn hs7]
    have h7 : d + 7 + 1 = (d + 1) + 7 := by omega
    rw [h7, ih, ← collect_sunday hn hs]
  | case3 n d hn hs ih =>
    have hs7 : getDay (d + 7) ≠ 0 := by simp only [getDay] at *; omega
    rw [collect_step hn hs7]
    have h7 : d + 7 + 1 = (d + 1) + 7 := by omega
    rw [h7, ih, collect_step hn hs]
    simp

/-- Iterated version of `collect_shift`. -/
theorem collect_shift_mul (n d q : Nat) :
    collect n (d + 7 * q) =
      ((collect n d).1.map (fun x => x + 7 * q), (collect n d).2 + 7 * q) := by
  induction q with
  | zero => simp
  | succ q ih =>
    have h7 : d + 7 * (q + 1) = (d + 7 * q) + 7 := by ring
    rw [h7, collect_shift, ih]
    refine Prod.ext ?_ ?_
    · simp only [List.map_map]
      have hfun : ((fun x => x + 7) ∘ fun x => x + 7 * q) =
          (fun x => x + 7 * (q + 1)) := by
        funext x
        simp only [Function.comp_apply]
        ring
      rw [hfun]
    · simp only
      ring

/-- The measurement `daySpan` is invariant under a uniform shift of all dates. -/
theorem daySpan_map_add (l : List Nat) (k : Nat) :
    daySpan (l.map (fun x => x + k)) = daySpan l := by
  cases l with
  | nil => simp [daySpan]
  | cons x xs =>
    unfold daySpan
    have h0 : 0 < (x :: xs).length := by simp
    have h1 : (x :: xs).length - 1 < (x :: xs).length := by simp
    have hlen : ((x :: xs).map (fun v => v + k)).length = (x :: xs).length := by
      simp
    rw [hlen,
        List.getD_eq_getElem _ _ (by simpa using h1),
        List.getD_eq_getElem _ _ (by simpa using h0),
        List.getD_eq_getElem _ _ h1,
        List.getD_eq_getElem _ _ h0]
    simp only [List.getElem_map]
    omega

/-- Since `28 % 4 = 0`, `generateDates 4` is exactly the 28-date window. -/
theorem generateDates_four_eq (today : Nat) :
    generateDates 4 today = (collect 28 today).1 := by
  unfold generateDates
  simp [collect_length]

/-- C8: for every starting day, the 28-date window of `generateDates 4`
spans at least 27 and strictly fewer than 35 calendar days between its
first and last element. -/
theorem generateDates_four_span (today : Nat) :
    27 ≤ daySpan (generateDates 4 today)
    ∧ daySpan (generateDates 4 today) < 35 := by
  rw [generateDates_four_eq]
  obtain ⟨q, r, hr, rfl⟩ : ∃ q r, r < 7 ∧ today = r + 7 * q :=
    ⟨today / 7, today % 7, Nat.mod_lt _ (by norm_num), by omega⟩
  rw [collect_shift_mul, daySpan_map_add]
  interval_cases r <;>
    simp [collect_zero, collect_sunday, collect_step, getDay, daySpan]

/-- C9: whenever padding runs (`28 % groupSize ≠ 0`), the calendar day
immediately after the 28th collected date is never part of the result:
the padding loop advances the cursor (already one past the last collected
date) once more before its first Sunday check. -/
theorem padding_gap (g today : Nat) (hg : 0 < g) (hr : 28 % g ≠ 0) :
    ∀ last, (collect 28 today).1.getLast? = some last →
      last + 1 ∉ generateDates g today := by
  intro last hlast
  have hcl := collect_getLast 28 today (by norm_num)
  rw [hcl] at hlast
  have hlast28 : last = (collect 28 today).2 - 1 := (Option.some.inj hlast).symm
  have hmem : (collect 28 today).2 - 1 ∈ (collect 28 today).1 :=
    List.mem_of_mem_getLast? (Option.mem_def.mpr hcl)
  have hb := collect_mem_bounds 28 today _ hmem
  have hlp1 : last + 1 = (collect 28 today).2 := by omega
  rw [hlp1]
  intro hmem2
  unfold generateDates at hmem2
  simp only [collect_length] at hmem2
  rw [if_pos hr] at hmem2
  rcases List.mem_append.mp hmem2 with h | h
  · exact absurd (collect_mem_bounds 28 today _ h).2 (lt_irrefl _)
  · have := pad_mem_gt _ _ _ h
    omega

/-- Concrete run of the 28-date collection phase starting on day 0. -/
theorem collect28_zero_eval :
    collect 28 0 =
      ([1, 2, 3, 4, 5, 6, 8, 9, 10, 11, 12, 13, 15, 16, 17, 18, 19, 20, 22,
        23, 24, 25, 26, 27, 29, 30, 31, 32], 33) := by
  simp [collect_zero, collect_sunday, collect_step, getDay]

/-- Witness for C9 at `groupSize = 5`, `today = 0`: the 28th collected date
is day 32, and day 33 (a non-Sunday) is absent from the result. -/
theorem padding_gap_witness : 32 + 1 ∉ generateDates 5 0 :=
  padding_gap 5 0 (by decide) (by decide) 32
    (by rw [collect28_zero_eval]; decide)

/-! ## Lemmas about `groupDates` -/

theorem groupDates_nil {α : Type} (g : Nat) (hg : 0 < g) :
    groupDates ([] : List α) g hg = [] := by
  rw [groupDates]

theorem groupDates_cons {α : Type} (x : α) (xs : List α) (g : Nat)
    (hg : 0 < g) :
    groupDates (x :: xs) g hg =
      (x :: xs).take g :: groupDates ((x :: xs).drop g) g hg := by
  rw [groupDates]

theorem groupDates_eq_nil_iff {α : Type} (dates : List α) (g : Nat)
    (hg : 0 < g) : groupDates dates g hg = [] ↔ dates = [] := by
  cases dates with
  | nil => simp [groupDates_nil]
  | cons x xs => simp [groupDates_cons]

theorem groupDates_flatten {α : Type} (dates : List α) (g : Nat)
    (hg : 0 < g) : (groupDates dates g hg).flatten = dates := by
  induction dates, g, hg using groupDates.induct with
  | case1 g hg => rw [groupDates_nil]; rfl
  | case2 g hg x xs ih =>
    rw [groupDates_cons, List.flatten_cons, ih, List.take_append_drop]

theorem groupDates_mem_length {α : Type} (dates : List α) (g : Nat)
    (hg : 0 < g) :
    ∀ grp ∈ groupDates dates g hg, 0 < grp.length ∧ grp.length ≤ g := by
  induction dates, g, hg using groupDates.induct with
  | case1 g hg => rw [groupDates_nil]; intro grp h; exact absurd h (List.not_mem_nil grp)
  | case2 g hg x xs ih =>
    rw [groupDates_cons]
    intro grp h
    rcases List.mem_cons.mp h with rfl | h
    · constructor
      · simp [Nat.lt_min, hg]
      · simpa using Nat.min_le_left g _
    · exact ih grp h

theorem groupDates_dropLast_length {α : Type} (dates : List α) (g : Nat)
    (hg : 0 < g) :
    ∀ grp ∈ (groupDates dates g hg).dropLast, grp.length = g := by
  induction dates, g, hg using groupDates.induct with
  | case1 g hg => rw [groupDates_nil]; intro grp h; exact absurd h (List.not_mem_nil grp)
  | case2 g hg x xs ih =>
    rw [groupDates_cons]
    by_cases hd : (x :: xs).drop g = []
    · rw [hd, groupDates_nil]
      intro grp h
      exact absurd h (List.not_mem_nil grp)
    · have hne : groupDates ((x :: xs).drop g) g hg ≠ [] := by
        simpa [groupDates_eq_nil_iff] using hd
      rw [List.dropLast_cons_of_ne_nil hne]
      intro grp h
      rcases List.mem_cons.mp h with rfl | h
      · have hlt : g < (x :: xs).length := by
          by_contra hle
          exact hd (List.drop_eq_nil_of_le (by omega))
        simp only [List.length_take, List.length_cons]
        simp only [List.length_cons] at hlt
        omega
      · exact ih grp h

/-- C4: concatenating the groups returned by `groupDates` in order yields
exactly the input list, for every list and every positive `groupSize`; in
particular for `generateDates n` with `n ∈ {3, 4, 5, 6, 7}`. -/
theorem groupDates_concat_spec :
    (∀ (α : Type) (dates : List α) (g : Nat) (hg : 0 < g),
        (groupDates dates g hg).flatten = dates)
    ∧ (∀ (today n : Nat) (hn : 0 < n), n ∈ [3, 4, 5, 6, 7] →
        (groupDates (generateDates n today) n hn).flatten =
          generateDates n today) :=
  ⟨fun _ dates g hg => groupDates_flatten dates g hg,
   fun today n hn _ => groupDates_flatten (generateDates n today) n hn⟩

/-- Witness for C4 at `dates = [10, 20, 30]`, `groupSize = 2`, and at
`generateDates 5 0` with `groupSize = 5`. -/
theorem groupDates_concat_spec_witness :
    (groupDates [10, 20, 30] 2 (by decide)).flatten = [10, 20, 30]
    ∧ (groupDates (generateDates 5 0) 5 (by decide)).flatten =
        generateDates 5 0 :=
  ⟨groupDates_concat_spec.1 Nat [10, 20, 30] 2 (by decide),
   groupDates_concat_spec.2 0 5 (by decide) (by decide)⟩

/-- C7: every group returned by `groupDates` except possibly the last has
exactly `groupSize` elements, and every group (the last included) has
between 1 and `groupSize` elements — no group is empty. -/
theorem groupDates_sizes_spec (α : Type) (dates : List α) (g : Nat)
    (hg : 0 < g) :
    (∀ grp ∈ (groupDates dates g hg).dropLast, grp.length = g)
    ∧ (∀ grp ∈ groupDates dates g hg, 1 ≤ grp.length ∧ grp.length ≤ g) :=
  ⟨groupDates_dropLast_length dates g hg,
   fun grp h => ⟨(groupDates_mem_length dates g hg grp h).1,
     (groupDates_mem_length dates g hg grp h).2⟩⟩

/-- Witness for C7 at `dates = [10, 20, 30]`, `groupSize = 2`. -/
theorem groupDates_sizes_spec_witness :
    (∀ grp ∈ (groupDates [10, 20, 30] 2 (by decide)).dropLast,
      grp.length = 2)
    ∧ (∀ grp ∈ groupDates [10, 20, 30] 2 (by decide),
        1 ≤ grp.length ∧ grp.length ≤ 2) :=
  groupDates_sizes_spec Nat [10, 20, 30] 2 (by decide)

/-! ## The `groupDates` loop: fuelled model vs. chunking recursion -/

theorem groupLoopF_zero {α : Type} (dates : List α) (g : Int) (i : Int)
    (acc : List (List α)) : groupLoopF dates g 0 i acc = none := rfl

theorem groupLoopF_succ {α : Type} (dates : List α) (g : Int) (fuel : Nat)
    (i : Int) (acc : List (List α)) :
    groupLoopF dates g (fuel + 1) i acc =
      if i < (dates.length : Int) then
        groupLoopF dates g fuel (i + g) (acc ++ [jsSlice dates i (i + g)])
      else
        some acc := rfl

theorem take_min_length {α : Type} (l : List α) (n : Nat) :
    l.take (min n l.length) = l.take n := by
  rw [List.take_eq_take]
  omega

/-- For a non-negative index and count, `slice(i, i + g)` is
`take g` of `drop i`. -/
theorem jsSlice_nat {α : Type} (l : List α) (i g : Nat) :
    jsSlice l (i : Int) ((i : Int) + (g : Int)) = (l.drop i).take g := by
  unfold jsSlice
  rw [if_neg (by omega : ¬((i : Int) < 0)),
      if_neg (by omega : ¬((i : Int) + (g : Int) < 0))]
  have hm1 : (min ((i : Int) + (g : Int)) ((l.length : Nat) : Int)).toNat =
      min (i + g) l.length := by omega
  have hm2 : (min (i : Int) ((l.length : Nat) : Int)).toNat =
      min i l.length := by omega
  rw [hm1, hm2, take_min_length]
  rcases le_total i l.length with h | h
  · rw [min_eq_left h]
    exact (List.take_drop i g l).symm
  · rw [min_eq_right h,
        List.drop_eq_nil_of_le (by simp only [List.length_take]; omega)]
    simp [List.drop_eq_nil_of_le h]

/-- While `0 < groupSize` and enough fuel remains, the loop computes the
chunking recursion: from index `i` it produces the groups of the suffix
`dates.drop i`, appended to the accumulator. -/
theorem groupLoopF_pos_agree {α : Type} (dates : List α) (g : Nat)
    (hg : 0 < g) :
    ∀ (fuel i : Nat) (acc : List (List α)), dates.length ≤ i + fuel →
      groupLoopF dates (g : Int) (fuel + 1) (i : Int) acc =
        some (acc ++ groupDates (dates.drop i) g hg) := by
  intro fuel
  induction fuel with
  | zero =>
    intro i acc hle
    rw [groupLoopF_succ]
    rw [if_neg (by omega : ¬((i : Int) < (dates.length : Int)))]
    rw [List.drop_eq_nil_of_le (by omega), groupDates_nil, List.append_nil]
  | succ fuel ih =>
    intro i acc hle
    by_cases hlt : i < dates.length
    · rw [groupLoopF_succ]
      rw [if_pos (by omega : (i : Int) < (dates.length : Int))]
      rw [jsSlice_nat]
      have hcast : (i : Int) + (g : Int) = ((i + g : Nat) : Int) := by push_cast; ring
      rw [hcast, ih (i + g) _ (by omega)]
      have hsplit : groupDates (dates.drop i) g hg =
          (dates.drop i).take g :: groupDates ((dates.drop i).drop g) g hg := by
        cases hd : dates.drop i with
        | nil =>
          exfalso
          have := congrArg List.length hd
          simp at this
          omega
        | cons y l => exact groupDates_cons y l g hg
      rw [hsplit, List.drop_drop]
      simp
    · rw [groupLoopF_succ]
      rw [if_neg (by omega : ¬((i : Int) < (dates.length : Int)))]
      rw [List.drop_eq_nil_of_le (by omega), groupDates_nil, List.append_nil]

/-- With `groupSize ≤ 0` and a non-empty list, the index never moves right,
so the loop guard `i < dates.length` stays true and no amount of fuel makes
the loop exit. -/
theorem groupLoopF_nonpos {α : Type} (dates : List α) (g : Int)
    (hne : dates ≠ []) (hg : g ≤ 0) :
    ∀ (fuel : Nat) (i : Int) (acc : List (List α)), i ≤ 0 →
      groupLoopF dates g fuel i acc = none := by
  intro fuel
  induction fuel with
  | zero => intro i acc hi; rfl
  | succ fuel ih =>
    intro i acc hi
    have hlen : 0 < dates.length := List.length_pos.mpr hne
    rw [groupLoopF_succ]
    rw [if_pos (by omega : i < (dates.length : Int))]
    exact ih (i + g) _ (by omega)

/-- C10: the `groupDates` loop terminates for every input list when
`groupSize` is positive (with its result given by the chunking recursion),
but for every non-empty input and `groupSize ≤ 0` it never terminates:
no fuel bound suffices, because the index never advances past the list. -/
theorem groupDates_termination_spec :
    (∀ (α : Type) (dates : List α) (g : Nat) (hg : 0 < g),
        ∃ fuel, groupLoopF dates (g : Int) fuel 0 [] =
          some (groupDates dates g hg))
    ∧ (∀ (α : Type) (dates : List α) (g : Int), dates ≠ [] → g ≤ 0 →
        ∀ fuel, groupLoopF dates g fuel 0 [] = none) := by
  constructor
  · intro α dates g hg
    refine ⟨dates.length + 1, ?_⟩
    have h := groupLoopF_pos_agree dates g hg dates.length 0 [] (by omega)
    simpa using h
  · intro α dates g hne hg fuel
    exact groupLoopF_nonpos dates g hne hg fuel 0 [] le_rfl

/-- Witness for C10: with `groupSize = 2` the loop finishes on `[10, 20, 30]`,
and with `groupSize = 0` it runs out of any fuel on `[10]`. -/
theorem groupDates_termination_spec_witness :
    (∃ fuel, groupLoopF [10, 20, 30] ((2 : Nat) : Int) fuel 0 [] =
      some (groupDates [10, 20, 30] 2 (by decide)))
    ∧ groupLoopF [10] (0 : Int) 5 0 [] = none :=
  ⟨groupDates_termination_spec.1 Nat [10, 20, 30] 2 (by decide),
   groupDates_termination_spec.2 Nat [10] 0 (by decide) le_rfl 5⟩

/-- C3 counterexample: `generateDates 0` does not fail — it returns a
28-element list (there is no argument validation anywhere in the code). -/
theorem generateDates_zero_cex : (generateDates 0 0).length = 28 := by
  rw [generateDates_length_eq]
  decide

/-- C3 amended: neither function validates `groupSize`.  `generateDates`
with `groupSize = 0` returns the unpadded 28-date window for every starting
day, and the `groupDates` loop with `groupSize ≤ 0` on a non-empty list
never terminates; no InvalidArgument condition is signalled in either
case. -/
theorem no_validation_spec :
    (∀ today, generateDates 0 today = (collect 28 today).1)
    ∧ (∀ (α : Type) (dates : List α) (g : Int), dates ≠ [] → g ≤ 0 →
        ∀ fuel, groupLoopF dates g fuel 0 [] = none) := by
  constructor
  · intro today
    unfold generateDates
    simp only [collect_length]
    rw [if_pos (by decide : 28 % 0 ≠ 0)]
    norm_num [pad_zero]
  · intro α dates g hne hg fuel
    exact groupLoopF_nonpos dates g hne hg fuel 0 [] le_rfl

/-- Witness for the amended C3 at `today = 0`, `dates = [10]`,
`groupSize = -3`. -/
theorem no_validation_spec_witness :
    generateDates 0 0 = (collect 28 0).1
    ∧ groupLoopF [10] (-3 : Int) 4 0 [] = none :=
  ⟨no_validation_spec.1 0,
   no_validation_spec.2 Nat [10] (-3) (by decide) (by decide) 4⟩

/-! ## The availability predicate -/

/-- C2: `isUnavailable` applies its rules in order.  With the special-item
flag set and a Wednesday date (`getDay() = 3`) it returns `unavailable`
for every slot; failing that, on a Friday (`getDay() = 5`) with
`ceil(dayOfMonth / 7)` even and the Morning slot `"AM"` it returns `full`;
failing both, it returns `available`. -/
theorem isUnavailable_rules (date : JSDate) (slot : String) (special : Bool) :
    (special = true ∧ date.day = 3 →
      isUnavailable date slot special = .unavailable)
    ∧ (¬(special = true ∧ date.day = 3) →
        date.day = 5 → ceilDiv7 date.dayOfMonth % 2 = 0 → slot = "AM" →
          isUnavailable date slot special = .full)
    ∧ (¬(special = true ∧ date.day = 3) →
        ¬(date.day = 5 ∧ ceilDiv7 date.dayOfMonth % 2 = 0 ∧ slot = "AM") →
          isUnavailable date slot special = .available) := by
  refine ⟨?_, ?_, ?_⟩
  · rintro ⟨hs, hd⟩
    simp [isUnavailable, hs, hd]
  · intro hn hf hsec hslot
    have hw : (special && (date.day == 3)) = false := by
      cases special
      · rfl
      · simp only [Bool.true_and, beq_eq_false_iff_ne, ne_eq]
        intro hd3
        exact hn ⟨rfl, hd3⟩
    simp [isUnavailable, hw, hf, hsec, hslot]
  · intro hn hfull
    have hw : (special && (date.day == 3)) = false := by
      cases special
      · rfl
      · simp only [Bool.true_and, beq_eq_false_iff_ne, ne_eq]
        intro hd3
        exact hn ⟨rfl, hd3⟩
    have hc : ((date.day == 5) && (ceilDiv7 date.dayOfMonth % 2 == 0)
        && (slot == "AM")) = false := by
      rcases Bool.eq_false_or_eq_true ((date.day == 5)
          && (ceilDiv7 date.dayOfMonth % 2 == 0) && (slot == "AM")) with h | h
      · exfalso
        simp only [Bool.and_eq_true, beq_iff_eq] at h
        exact hfull ⟨h.1.1, h.1.2, h.2⟩
      · exact h
    simp [isUnavailable, hw, hc]

/-- Witness for C2: a Wednesday with the flag (unavailable for a non-AM
slot), an even-week Friday morning (full), and a first-week Friday morning
(available). -/
theorem isUnavailable_rules_witness :
    isUnavailable ⟨3, 10⟩ "PM" true = .unavailable
    ∧ isUnavailable ⟨5, 8⟩ "AM" false = .full
    ∧ isUnavailable ⟨5, 1⟩ "AM" false = .available :=
  ⟨(isUnavailable_rules ⟨3, 10⟩ "PM" true).1 ⟨rfl, rfl⟩,
   (isUnavailable_rules ⟨5, 8⟩ "AM" false).2.1 (by simp) rfl (by decide) rfl,
   (isUnavailable_rules ⟨5, 1⟩ "AM" false).2.2 (by simp) (by decide)⟩

end DeliverySlotPicker
